import Mathlib

/-!
# Verification of the btc-demo-go transaction pipeline

Shallow embedding of the wallet's transaction-construction pipeline
(`main.go`, `helper.go`): coin selection, fee estimation, assembly
(outputs, inputs, change) and per-input signing dispatch.

Modelling conventions:
* Go `int64` values (amounts, fees) are `Int`; overflow is irrelevant at
  the magnitudes involved.
* Go `float64` fee rates are `ℚ`; the Go conversion `int64(x)` truncates
  toward zero, modelled by `truncQ`.
* Byte slices (scripts, hashes, keys) are `List Nat`.
* Network calls (`GetUTXOs`, `GetFeeRate`) are inputs: the fetched UTXO
  list and fee rate are passed as parameters to the pure pipeline.
* External crypto / script primitives (`CalcWitnessSigHash`, the legacy
  sighash, `ecdsa.Sign`, the compressed public key, address decoding to a
  pay-to-address script) are abstract parameters collected in `SignPrims`
  and a `decode` function.
* In-place mutation of the Go transaction is explicit state passing.
-/

namespace BtcDemo

/-- A script or other byte string. -/
abbrev Bytes := List Nat

/-- `wire.OutPoint`: reference to a prior transaction output.
The 32-byte transaction hash is abstracted to a `Nat`. -/
structure OutPoint where
  hash : Nat
  index : Nat
deriving DecidableEq, Repr

/-- `UTXO` from `helper.go`: an unspent transaction output. -/
structure UTXO where
  OutPoint : OutPoint
  Value : Int
  PkScript : Bytes
deriving DecidableEq, Repr

/-- `wire.TxOut`: an output of the transaction being built. -/
structure TxOut where
  value : Int
  pkScript : Bytes
deriving DecidableEq, Repr

/-- `wire.TxIn`: an input of the transaction being built.  `wire.NewTxIn`
with nil script/witness gives empty `SignatureScript` and `Witness`. -/
structure TxIn where
  PreviousOutPoint : OutPoint
  SignatureScript : Bytes
  Witness : List Bytes
deriving DecidableEq, Repr

/-- `wire.MsgTx` restricted to the fields the pipeline manipulates. -/
structure MsgTx where
  TxIn : List TxIn
  TxOut : List TxOut
deriving DecidableEq, Repr

/-- `IsSegwitScript` from `helper.go`: native segwit detection
(P2WPKH: 22 bytes starting `0x00 0x14`; P2WSH: 34 bytes starting
`0x00 0x20`). -/
def IsSegwitScript (script : Bytes) : Bool :=
  if script.length = 22 ∧ script[0]? = some 0x00 ∧ script[1]? = some 0x14 then
    true
  else if script.length = 34 ∧ script[0]? = some 0x00 ∧ script[1]? = some 0x20 then
    true
  else
    false

/-- Go `int64(x)` conversion of an exact rational value `x`: truncation
toward zero (round toward zero to an integer). -/
def truncRat (q : ℚ) : Int :=
  if q < 0 then ⌈q⌉ else ⌊q⌋

/-- `EstimateFee` from `helper.go`.  The `float64` fee rate is modelled
as an exact rational; `int64(float64(vsize)*feeRate)` is the product
`vsize * feeRate` truncated toward zero, computed here on the
numerator/denominator representation (`Int.tdiv` truncates toward zero
exactly as Go's `int64()` conversion does); `estimateFee_eq_truncRat`
below proves this agrees with `truncRat (vsize * feeRate)`. -/
def EstimateFee (numInputs numOutputs : Int) (feeRate : ℚ) : Int :=
  let baseSize : Int := 10
  let inputSize : Int := 68 * numInputs
  let outputSize : Int := 31 * numOutputs
  let vsize : Int := baseSize + inputSize + outputSize
  Int.tdiv (vsize * feeRate.num) feeRate.den + 1

/-- The comparison used by `sort.Slice` in `selectUTXOs`
(`utxos[i].Value > utxos[j].Value` sorts by descending value). -/
def valGE (a b : UTXO) : Prop := b.Value ≤ a.Value

instance : DecidableRel valGE := fun a b => inferInstanceAs (Decidable (b.Value ≤ a.Value))

instance : IsTotal UTXO valGE := ⟨fun a b => le_total b.Value a.Value⟩

instance : IsTrans UTXO valGE := ⟨fun _ _ _ h₁ h₂ => le_trans h₂ h₁⟩

/-- The descending-by-value sort performed by `selectUTXOs`.  Go's
`sort.Slice` is not stable; the embedding fixes insertion sort as one
admissible implementation. -/
def sortUTXOs (utxos : List UTXO) : List UTXO :=
  List.insertionSort valGE utxos

/-- The accumulation loop of `selectUTXOs`: append each UTXO in order,
add its value to the running total, and break once the total reaches
`amount`.  `acc` is the running total entering the loop. -/
def selectLoop (amount : Int) : Int → List UTXO → List UTXO × Int
  | acc, [] => ([], acc)
  | acc, u :: rest =>
    let acc' := acc + u.Value
    if amount ≤ acc' then ([u], acc')
    else
      let p := selectLoop amount acc' rest
      (u :: p.1, p.2)

/-- `selectUTXOs` from `main.go`, with the `GetUTXOs` network result
passed in as `utxos`: sort descending by value, then greedily accumulate
until the running total reaches `amount`. -/
def selectUTXOs (utxos : List UTXO) (amount : Int) : List UTXO × Int :=
  selectLoop amount 0 (sortUTXOs utxos)

/-- The sighash-type byte `txscript.SigHashAll`. -/
def sigHashAll : Nat := 0x01

/-- Errors of the pipeline, one constructor per `return err` site of
`CreateTransaction` and `signTransaction` (`insufficientFunds` is the
`errors.New("no change to send")` site). -/
inductive TxError where
  | decodeAddressError (addr : String)
  | insufficientFunds
  | sigHashError (i : Nat) (msg : String)
  | signError (i : Nat) (msg : String)
  | utxoIndexOutOfRange (i : Nat)
deriving DecidableEq, Repr

/-- The external signing primitives of `signTransaction`, abstracted:
`calcWitnessSigHash` is `txscript.CalcWitnessSigHash` (BIP-143 digest of
the current transaction state for input `i` spending `u`),
`legacySigHash` the classic digest computed inside
`txscript.SignatureScript`, `ecSign` is `ecdsa.Sign(privKey, ·).Serialize()`
(the DER signature bytes), and `pubKey` is
`privKey.PubKey().SerializeCompressed()`. -/
structure SignPrims where
  calcWitnessSigHash : MsgTx → Nat → UTXO → Except String Bytes
  legacySigHash : MsgTx → Nat → UTXO → Except String Bytes
  ecSign : Bytes → Bytes
  pubKey : Bytes

/-- Minimal-push encoding of one stack element (length byte then data,
for data shorter than 76 bytes, which covers signatures and keys). -/
def pushData (b : Bytes) : Bytes := b.length :: b

/-- Modelled from the spec: `txscript.SignatureScript` is not part of this
repository; §4.6 specifies that the legacy unlocking script embeds
`[signature, public-key]` per the legacy push-encoding rules, the
signature being the DER signature with the sighash-type byte appended. -/
def signatureScriptFor (prims : SignPrims) (hash : Bytes) : Bytes :=
  pushData (prims.ecSign hash ++ [sigHashAll]) ++ pushData prims.pubKey

/-- Replace the element at position `i` (identity when out of range),
mirroring in-place mutation of `tx.TxIn[i]`. -/
def modifyIdx (f : α → α) : Nat → List α → List α
  | _, [] => []
  | 0, a :: l => f a :: l
  | n + 1, a :: l => a :: modifyIdx f n l

/-- The Go assignment `txIn.Witness = wire.TxWitness{sig, pkData}` with
`sig = append(rawSig.Serialize(), byte(txscript.SigHashAll))`. -/
def witnessUpdate (prims : SignPrims) (hash : Bytes) (inp : TxIn) : TxIn :=
  { inp with Witness := [prims.ecSign hash ++ [sigHashAll], prims.pubKey] }

/-- The Go assignment `txIn.SignatureScript = sig` for the legacy branch. -/
def legacyUpdate (prims : SignPrims) (hash : Bytes) (inp : TxIn) : TxIn :=
  { inp with SignatureScript := signatureScriptFor prims hash }

/-- One iteration of the `signTransaction` loop on input `i` of the
current transaction state: dispatch on `IsSegwitScript utxos[i].PkScript`;
witness scripts get a two-element witness stack
`[derSig ++ [sigHashAll], pubKey]`, legacy scripts get a signature
script.  The positional access `utxos[i]` panics in Go when out of
range; the embedding surfaces that as `utxoIndexOutOfRange`. -/
def signOne (prims : SignPrims) (utxos : List UTXO) (tx : MsgTx) (i : Nat) :
    Except TxError MsgTx :=
  match utxos[i]? with
  | none => .error (.utxoIndexOutOfRange i)
  | some u =>
    if IsSegwitScript u.PkScript then
      match prims.calcWitnessSigHash tx i u with
      | .error e => .error (.sigHashError i e)
      | .ok hash =>
        .ok { tx with TxIn := modifyIdx (witnessUpdate prims hash) i tx.TxIn }
    else
      match prims.legacySigHash tx i u with
      | .error e => .error (.signError i e)
      | .ok hash =>
        .ok { tx with TxIn := modifyIdx (legacyUpdate prims hash) i tx.TxIn }

/-- The `for i, txIn := range tx.TxIn` loop of `signTransaction`, with the
in-place mutation threaded as state. -/
def signSteps (prims : SignPrims) (utxos : List UTXO) :
    List Nat → MsgTx → Except TxError MsgTx
  | [], tx => .ok tx
  | i :: rest, tx =>
    match signOne prims utxos tx i with
    | .error e => .error e
    | .ok tx' => signSteps prims utxos rest tx'

/-- `signTransaction` from `main.go`: sign every input in order. -/
def signTransaction (prims : SignPrims) (tx : MsgTx) (utxos : List UTXO) :
    Except TxError MsgTx :=
  signSteps prims utxos (List.range tx.TxIn.length) tx

/-- `addOutput` from `main.go`, with `btcutil.DecodeAddress` followed by
`txscript.PayToAddrScript` abstracted into `decode`: append an output
paying `amount` to the decoded script. -/
def addOutput (decode : String → Option Bytes) (tx : MsgTx)
    (receiverAddress : String) (amount : Int) : Except TxError MsgTx :=
  match decode receiverAddress with
  | none => .error (.decodeAddressError receiverAddress)
  | some pkScript => .ok { tx with TxOut := tx.TxOut ++ [⟨amount, pkScript⟩] }

/-- `addInputs` from `main.go`: append one input per selected UTXO,
referencing it by outpoint.  `wire.NewTxIn(&utxo.OutPoint, nil, nil)`
gives an empty signature script and witness (the segwit branch only
replaces nil by an empty slice, identical in the embedding). -/
def addInputs (tx : MsgTx) (utxos : List UTXO) : MsgTx :=
  { tx with TxIn := tx.TxIn ++ utxos.map (fun u => ⟨u.OutPoint, [], []⟩) }

/-- The assembly phase of `CreateTransaction` (everything before the call
to `signTransaction`), with the fetched UTXO list and fee rate passed in:
payment output, coin selection, inputs, fee, change check, change
output.  Returns the unsigned transaction together with the selected
UTXOs handed to the signer. -/
def assemble (decode : String → Option Bytes) (walletAddress : String)
    (receiverAddress : String) (amount : Int) (utxos : List UTXO)
    (feeRate : ℚ) : Except TxError (MsgTx × List UTXO) :=
  match addOutput decode ⟨[], []⟩ receiverAddress amount with
  | .error e => .error e
  | .ok tx0 =>
    let sel := selectUTXOs utxos amount
    let tx1 := addInputs tx0 sel.1
    let fee := EstimateFee sel.1.length 2 feeRate
    let changeAmount := sel.2 - amount - fee
    if 0 < changeAmount then
      match addOutput decode tx1 walletAddress changeAmount with
      | .error e => .error e
      | .ok tx2 => .ok (tx2, sel.1)
    else
      .error .insufficientFunds

/-- `CreateTransaction` from `main.go` (serialization, a pure encoding
step after signing, is out of scope): assemble, then sign. -/
def createTransaction (prims : SignPrims) (decode : String → Option Bytes)
    (walletAddress : String) (receiverAddress : String) (amount : Int)
    (utxos : List UTXO) (feeRate : ℚ) : Except TxError MsgTx :=
  match assemble decode walletAddress receiverAddress amount utxos feeRate with
  | .error e => .error e
  | .ok (tx, sel) => signTransaction prims tx sel

/-- Total value of a list of UTXOs. -/
def sumVals (utxos : List UTXO) : Int := (utxos.map (fun u => u.Value)).sum

instance {ε α : Type} [DecidableEq ε] [DecidableEq α] : DecidableEq (Except ε α) := fun a b =>
  match a, b with
  | .error e, .error e' =>
    if h : e = e' then isTrue (by rw [h]) else isFalse (fun hh => h (Except.error.inj hh))
  | .ok x, .ok y =>
    if h : x = y then isTrue (by rw [h]) else isFalse (fun hh => h (Except.ok.inj hh))
  | .error _, .ok _ => isFalse (fun hh => Except.noConfusion hh)
  | .ok _, .error _ => isFalse (fun hh => Except.noConfusion hh)

/-! ## Properties of the selection loop -/

/-- The returned total is the entering total plus the values of the
returned selection. -/
theorem selectLoop_total (a : Int) :
    ∀ (l : List UTXO) (acc : Int),
      (selectLoop a acc l).2 = acc + sumVals (selectLoop a acc l).1
  | [], acc => by simp [selectLoop, sumVals]
  | u :: rest, acc => by
    by_cases h : a ≤ acc + u.Value
    · simp [selectLoop, h, sumVals]
    · have ih := selectLoop_total a rest (acc + u.Value)
      simp only [selectLoop, if_neg h]
      simp only [sumVals, List.map_cons, List.sum_cons] at ih ⊢
      omega

/-- The selection is an initial segment of the traversed list. -/
theorem selectLoop_init (a : Int) :
    ∀ (l : List UTXO) (acc : Int), ∃ rest, l = (selectLoop a acc l).1 ++ rest
  | [], acc => ⟨[], by simp [selectLoop]⟩
  | u :: rest, acc => by
    by_cases h : a ≤ acc + u.Value
    · exact ⟨rest, by simp [selectLoop, h]⟩
    · obtain ⟨r₂, hr⟩ := selectLoop_init a rest (acc + u.Value)
      exact ⟨r₂, by simp only [selectLoop, if_neg h]; simpa using hr⟩

/-- The loop stops with the target reached or with the list exhausted. -/
theorem selectLoop_stop (a : Int) :
    ∀ (l : List UTXO) (acc : Int),
      a ≤ (selectLoop a acc l).2 ∨ (selectLoop a acc l).1 = l
  | [], acc => Or.inr (by simp [selectLoop])
  | u :: rest, acc => by
    by_cases h : a ≤ acc + u.Value
    · exact Or.inl (by simp [selectLoop, h])
    · rcases selectLoop_stop a rest (acc + u.Value) with h₂ | h₂
      · exact Or.inl (by simpa [selectLoop, h] using h₂)
      · exact Or.inr (by simp [selectLoop, h, h₂])

/-- Minimality: while the running total is below the target, no proper
initial segment of the returned selection already reaches the target. -/
theorem selectLoop_minimal (a : Int) :
    ∀ (l : List UTXO) (acc : Int), acc < a →
      ∀ pre rest', (selectLoop a acc l).1 = pre ++ rest' → rest' ≠ [] →
        acc + sumVals pre < a
  | [], acc, hacc, pre, rest', hsplit, hne => by
    simp only [selectLoop] at hsplit
    exact absurd (List.append_eq_nil.mp hsplit.symm).2 hne
  | u :: rest, acc, hacc, pre, rest', hsplit, hne => by
    by_cases h : a ≤ acc + u.Value
    · simp only [selectLoop, if_pos h] at hsplit
      cases pre with
      | nil => simpa [sumVals] using hacc
      | cons p pre' =>
        have h2 := (List.cons.inj hsplit).2
        exact absurd (List.append_eq_nil.mp h2.symm).2 hne
    · simp only [selectLoop, if_neg h] at hsplit
      cases pre with
      | nil => simpa [sumVals] using hacc
      | cons p pre' =>
        obtain ⟨hpu, htail⟩ := List.cons.inj hsplit
        have ih := selectLoop_minimal a rest (acc + u.Value) (lt_of_not_le h)
          pre' rest' htail hne
        subst hpu
        simp only [sumVals, List.map_cons, List.sum_cons] at ih ⊢
        omega

/-- A nonempty list always yields a nonempty selection (the loop appends
before testing the threshold). -/
theorem selectLoop_ne_nil (a : Int) (u : UTXO) (rest : List UTXO) (acc : Int) :
    (selectLoop a acc (u :: rest)).1 ≠ [] := by
  by_cases h : a ≤ acc + u.Value <;> simp [selectLoop, h]

/-- When the entering total already meets the target, exactly the first
element is taken. -/
theorem selectLoop_first (a : Int) (u : UTXO) (rest : List UTXO) (acc : Int)
    (h : a ≤ acc + u.Value) : selectLoop a acc (u :: rest) = ([u], acc + u.Value) := by
  simp [selectLoop, h]

/-! ## Properties of the descending sort -/

theorem sortUTXOs_perm (l : List UTXO) : List.Perm (sortUTXOs l) l :=
  List.perm_insertionSort valGE l

theorem sortUTXOs_sorted (l : List UTXO) : List.Sorted valGE (sortUTXOs l) :=
  List.sorted_insertionSort valGE l

theorem sortUTXOs_sumVals (l : List UTXO) : sumVals (sortUTXOs l) = sumVals l := by
  unfold sumVals
  exact List.Perm.sum_eq (List.Perm.map _ (sortUTXOs_perm l))

instance : IsAntisymm Int (· ≥ ·) := ⟨fun _ _ h₁ h₂ => le_antisymm h₂ h₁⟩

/-- The sorted value sequence depends only on the multiset of input
values: permuting the input list leaves it unchanged. -/
theorem sortUTXOs_map_value {l l' : List UTXO} (h : List.Perm l l') :
    (sortUTXOs l).map (fun u => u.Value) = (sortUTXOs l').map (fun u => u.Value) := by
  have hperm : List.Perm ((sortUTXOs l).map (fun u => u.Value)) ((sortUTXOs l').map (fun u => u.Value)) :=
    List.Perm.map _ ((sortUTXOs_perm l).trans (h.trans (sortUTXOs_perm l').symm))
  have hs1 : List.Sorted (· ≥ ·) ((sortUTXOs l).map (fun u => u.Value)) := by
    rw [List.Sorted, List.pairwise_map]
    exact (sortUTXOs_sorted l).imp (fun hab => hab)
  have hs2 : List.Sorted (· ≥ ·) ((sortUTXOs l').map (fun u => u.Value)) := by
    rw [List.Sorted, List.pairwise_map]
    exact (sortUTXOs_sorted l').imp (fun hab => hab)
  exact List.eq_of_perm_of_sorted hperm hs1 hs2

/-! ## The value projection of the selection loop -/

/-- The selection loop on bare values. -/
def selectLoopV (amount : Int) : Int → List Int → List Int × Int
  | acc, [] => ([], acc)
  | acc, v :: rest =>
    let acc' := acc + v
    if amount ≤ acc' then ([v], acc')
    else
      let p := selectLoopV amount acc' rest
      (v :: p.1, p.2)

/-- The selection loop commutes with the value projection. -/
theorem selectLoop_map_value (a : Int) :
    ∀ (l : List UTXO) (acc : Int),
      (selectLoop a acc l).1.map (fun u => u.Value) = (selectLoopV a acc (l.map (fun u => u.Value))).1
      ∧ (selectLoop a acc l).2 = (selectLoopV a acc (l.map (fun u => u.Value))).2
  | [], acc => by simp [selectLoop, selectLoopV]
  | u :: rest, acc => by
    by_cases h : a ≤ acc + u.Value
    · simp [selectLoop, selectLoopV, h]
    · have ih := selectLoop_map_value a rest (acc + u.Value)
      simp only [selectLoop, List.map_cons, selectLoopV, if_neg h]
      exact ⟨by simpa using ih.1, ih.2⟩

/-! ## Properties of the fee computation -/

/-- Truncating division by a positive denominator is truncation toward
zero of the exact quotient. -/
theorem tdiv_eq_truncRat (n : Int) (d : Nat) (hd : d ≠ 0) :
    Int.tdiv n d = truncRat ((n : ℚ) / (d : ℚ)) := by
  have hdpos : (0 : Int) ≤ (d : Int) := Int.ofNat_nonneg d
  have hdq : (0 : ℚ) < (d : ℚ) := by
    exact_mod_cast Nat.pos_of_ne_zero hd
  rcases le_or_lt 0 n with hn | hn
  · have h1 : Int.tdiv n d = n / (d : Int) := Int.tdiv_eq_ediv hn hdpos
    have hq : (0 : ℚ) ≤ (n : ℚ) / (d : ℚ) :=
      div_nonneg (by exact_mod_cast hn) (le_of_lt hdq)
    rw [h1, truncRat, if_neg (not_lt.mpr hq), Rat.floor_intCast_div_natCast]
  · have h1 : Int.tdiv n d = -(Int.tdiv (-n) d) := by
      rw [Int.neg_tdiv, neg_neg]
    have h2 : Int.tdiv (-n) d = (-n) / (d : Int) :=
      Int.tdiv_eq_ediv (by omega) hdpos
    have hq : (n : ℚ) / (d : ℚ) < 0 :=
      div_neg_of_neg_of_pos (by exact_mod_cast hn) hdq
    rw [h1, h2, truncRat, if_pos hq]
    have hceil : ⌈(n : ℚ) / (d : ℚ)⌉ = -⌊-((n : ℚ) / (d : ℚ))⌋ := by
      rw [Int.floor_neg, neg_neg]
    rw [hceil, ← neg_div, ← Int.cast_neg, Rat.floor_intCast_div_natCast]

/-- `EstimateFee` equals the truncated exact product
`(10 + 68*numInputs + 31*numOutputs) * feeRate`, plus one. -/
theorem estimateFee_eq_truncRat (n m : Int) (r : ℚ) :
    EstimateFee n m r = truncRat (((10 + 68 * n + 31 * m : Int) : ℚ) * r) + 1 := by
  unfold EstimateFee
  have h1 : Int.tdiv ((10 + 68 * n + 31 * m) * r.num) r.den =
      truncRat ((((10 + 68 * n + 31 * m) * r.num : Int) : ℚ) / (r.den : ℚ)) :=
    tdiv_eq_truncRat _ r.den r.den_nz
  have h2 : ((((10 + 68 * n + 31 * m) * r.num : Int) : ℚ) / (r.den : ℚ)) =
      ((10 + 68 * n + 31 * m : Int) : ℚ) * r := by
    push_cast
    rw [mul_div_assoc, Rat.num_div_den]
  simp only [h1, h2]

/-- Truncation toward zero is monotone on nonnegative arguments. -/
theorem truncRat_mono_nonneg {q q' : ℚ} (h0 : 0 ≤ q) (h : q ≤ q') :
    truncRat q ≤ truncRat q' := by
  rw [truncRat, truncRat, if_neg (not_lt.mpr h0), if_neg (not_lt.mpr (le_trans h0 h))]
  exact Int.floor_le_floor h

/-! ## Properties of the signing loop -/

theorem modifyIdx_length (f : α → α) : ∀ (i : Nat) (l : List α),
    (modifyIdx f i l).length = l.length
  | i, [] => by cases i <;> rfl
  | 0, _ :: _ => rfl
  | n + 1, a :: l => by simp [modifyIdx, modifyIdx_length f n l]

theorem modifyIdx_get_ne (f : α → α) : ∀ (i j : Nat) (l : List α), i ≠ j →
    (modifyIdx f i l)[j]? = l[j]?
  | i, _, [], _ => by cases i <;> rfl
  | 0, 0, _ :: _, h => absurd rfl h
  | 0, j + 1, a :: l, _ => by simp [modifyIdx]
  | i + 1, 0, a :: l, _ => by simp [modifyIdx]
  | i + 1, j + 1, a :: l, h => by
    simp only [modifyIdx, List.getElem?_cons_succ]
    exact modifyIdx_get_ne f i j l (fun hij => h (by rw [hij]))

theorem modifyIdx_get_eq (f : α → α) : ∀ (i : Nat) (l : List α),
    (modifyIdx f i l)[i]? = Option.map f l[i]?
  | i, [] => by cases i <;> rfl
  | 0, a :: l => by simp [modifyIdx]
  | i + 1, a :: l => by
    simp only [modifyIdx, List.getElem?_cons_succ]
    exact modifyIdx_get_eq f i l

/-- What a finalized input looks like for the UTXO it spends: witness
scripts give an empty unlocking script and the two-element witness
stack `[derSig ++ [sigHashAll], pubKey]`; legacy scripts give a
populated unlocking script and no witness entry. -/
def signedShape (prims : SignPrims) (u : UTXO) (inp : TxIn) : Prop :=
  if IsSegwitScript u.PkScript then
    inp.SignatureScript = [] ∧
      ∃ hash, inp.Witness = [prims.ecSign hash ++ [sigHashAll], prims.pubKey]
  else
    inp.SignatureScript ≠ [] ∧ inp.Witness = []

/-- Input `i` of `tx` is still a fresh placeholder. -/
def emptyAt (tx : MsgTx) (i : Nat) : Prop :=
  ∀ inp, tx.TxIn[i]? = some inp → inp.SignatureScript = [] ∧ inp.Witness = []


/-- `signOne` unfolded when the positional UTXO lookup succeeds. -/
theorem signOne_eq (prims : SignPrims) (utxos : List UTXO) (tx : MsgTx) (i : Nat)
    (u : UTXO) (hu : utxos[i]? = some u) :
    signOne prims utxos tx i =
      if IsSegwitScript u.PkScript then
        match prims.calcWitnessSigHash tx i u with
        | .error e => .error (.sigHashError i e)
        | .ok hash =>
          .ok { tx with TxIn := modifyIdx (witnessUpdate prims hash) i tx.TxIn }
      else
        match prims.legacySigHash tx i u with
        | .error e => .error (.signError i e)
        | .ok hash =>
          .ok { tx with TxIn := modifyIdx (legacyUpdate prims hash) i tx.TxIn } := by
  unfold signOne
  rw [hu]

/-- Anatomy of a successful run of the signing loop over a list of
distinct input indices whose inputs start as fresh placeholders: input
count and outputs are untouched, unprocessed indices keep their inputs,
and every processed index ends in `signedShape` for its positionally
matched UTXO (which in particular must exist, so the positional access
was in bounds). -/
theorem signSteps_ok (prims : SignPrims) (utxos : List UTXO) :
    ∀ (idxs : List Nat) (tx tx' : MsgTx),
      idxs.Nodup →
      (∀ i ∈ idxs, emptyAt tx i) →
      signSteps prims utxos idxs tx = .ok tx' →
      tx'.TxIn.length = tx.TxIn.length ∧
      tx'.TxOut = tx.TxOut ∧
      (∀ j, j ∉ idxs → tx'.TxIn[j]? = tx.TxIn[j]?) ∧
      (∀ i ∈ idxs, ∀ inp, tx.TxIn[i]? = some inp →
        ∃ u, utxos[i]? = some u ∧
          ∃ inp', tx'.TxIn[i]? = some inp' ∧ signedShape prims u inp')
  | [], tx, tx', _, _, hrun => by
    simp only [signSteps] at hrun
    cases hrun
    exact ⟨rfl, rfl, fun _ _ => rfl, fun i hi => absurd hi (List.not_mem_nil i)⟩
  | i :: rest, tx, tx', hnodup, hempty, hrun => by
    have hnotin : i ∉ rest := (List.nodup_cons.mp hnodup).1
    have hnodup' : rest.Nodup := (List.nodup_cons.mp hnodup).2
    simp only [signSteps] at hrun
    rcases hu : utxos[i]? with _ | u
    · have hbad : signOne prims utxos tx i = .error (.utxoIndexOutOfRange i) := by
        unfold signOne; rw [hu]
      rw [hbad] at hrun
      exact absurd hrun (by intro h; cases h)
    rw [signOne_eq prims utxos tx i u hu] at hrun
    by_cases hseg : IsSegwitScript u.PkScript
    case pos =>
      rw [if_pos hseg] at hrun
      rcases hh : prims.calcWitnessSigHash tx i u with e | hash
      · rw [hh] at hrun
        have hrun' : (Except.error (TxError.sigHashError i e) : Except TxError MsgTx) =
            .ok tx' := hrun
        cases hrun'
      rw [hh] at hrun
      have hrun' : signSteps prims utxos rest
          { tx with TxIn := modifyIdx (witnessUpdate prims hash) i tx.TxIn } = .ok tx' := hrun
      have hempty' : ∀ j ∈ rest, emptyAt
          { tx with TxIn := modifyIdx (witnessUpdate prims hash) i tx.TxIn } j := by
        intro j hj inp hinp
        have hne : i ≠ j := fun hij => hnotin (hij ▸ hj)
        have hinp' : (modifyIdx (witnessUpdate prims hash) i tx.TxIn)[j]? = some inp := hinp
        rw [modifyIdx_get_ne _ i j tx.TxIn hne] at hinp'
        exact hempty j (List.mem_cons_of_mem i hj) inp hinp'
      obtain ⟨hlen, hout, hkeep, hshape⟩ :=
        signSteps_ok prims utxos rest _ tx' hnodup' hempty' hrun'
      refine ⟨?_, hout, ?_, ?_⟩
      · rw [hlen]; exact modifyIdx_length _ i tx.TxIn
      · intro j hj
        have hne : i ≠ j := fun hij => hj (hij ▸ List.mem_cons_self i rest)
        rw [hkeep j (fun hjr => hj (List.mem_cons_of_mem i hjr))]
        exact modifyIdx_get_ne _ i j tx.TxIn hne
      · intro i' hi' inp hinp
        rcases List.mem_cons.mp hi' with rfl | hir
        · refine ⟨u, hu, witnessUpdate prims hash inp, ?_, ?_⟩
          · rw [hkeep i' hnotin]
            have h2 : (modifyIdx (witnessUpdate prims hash) i' tx.TxIn)[i']? =
                some (witnessUpdate prims hash inp) := by
              rw [modifyIdx_get_eq, hinp]; rfl
            exact h2
          · have he := hempty i' (List.mem_cons_self i' rest) inp hinp
            unfold signedShape
            rw [if_pos hseg]
            exact ⟨he.1, hash, rfl⟩
        · have hne : i ≠ i' := fun hij => hnotin (hij ▸ hir)
          refine hshape i' hir inp ?_
          have : (modifyIdx (witnessUpdate prims hash) i tx.TxIn)[i']? = tx.TxIn[i']? :=
            modifyIdx_get_ne _ i i' tx.TxIn hne
          rw [show ({ tx with TxIn := modifyIdx (witnessUpdate prims hash) i tx.TxIn } :
              MsgTx).TxIn[i']? = (modifyIdx (witnessUpdate prims hash) i tx.TxIn)[i']? from rfl,
            this]
          exact hinp
    case neg =>
      rw [if_neg hseg] at hrun
      rcases hh : prims.legacySigHash tx i u with e | hash
      · rw [hh] at hrun
        have hrun' : (Except.error (TxError.signError i e) : Except TxError MsgTx) =
            .ok tx' := hrun
        cases hrun'
      rw [hh] at hrun
      have hrun' : signSteps prims utxos rest
          { tx with TxIn := modifyIdx (legacyUpdate prims hash) i tx.TxIn } = .ok tx' := hrun
      have hempty' : ∀ j ∈ rest, emptyAt
          { tx with TxIn := modifyIdx (legacyUpdate prims hash) i tx.TxIn } j := by
        intro j hj inp hinp
        have hne : i ≠ j := fun hij => hnotin (hij ▸ hj)
        have hinp' : (modifyIdx (legacyUpdate prims hash) i tx.TxIn)[j]? = some inp := hinp
        rw [modifyIdx_get_ne _ i j tx.TxIn hne] at hinp'
        exact hempty j (List.mem_cons_of_mem i hj) inp hinp'
      obtain ⟨hlen, hout, hkeep, hshape⟩ :=
        signSteps_ok prims utxos rest _ tx' hnodup' hempty' hrun'
      refine ⟨?_, hout, ?_, ?_⟩
      · rw [hlen]; exact modifyIdx_length _ i tx.TxIn
      · intro j hj
        have hne : i ≠ j := fun hij => hj (hij ▸ List.mem_cons_self i rest)
        rw [hkeep j (fun hjr => hj (List.mem_cons_of_mem i hjr))]
        exact modifyIdx_get_ne _ i j tx.TxIn hne
      · intro i' hi' inp hinp
        rcases List.mem_cons.mp hi' with rfl | hir
        · refine ⟨u, hu, legacyUpdate prims hash inp, ?_, ?_⟩
          · rw [hkeep i' hnotin]
            have h2 : (modifyIdx (legacyUpdate prims hash) i' tx.TxIn)[i']? =
                some (legacyUpdate prims hash inp) := by
              rw [modifyIdx_get_eq, hinp]; rfl
            exact h2
          · have he := hempty i' (List.mem_cons_self i' rest) inp hinp
            unfold signedShape
            rw [if_neg hseg]
            refine ⟨?_, he.2⟩
            simp [legacyUpdate, signatureScriptFor, pushData]
        · have hne : i ≠ i' := fun hij => hnotin (hij ▸ hir)
          refine hshape i' hir inp ?_
          have : (modifyIdx (legacyUpdate prims hash) i tx.TxIn)[i']? = tx.TxIn[i']? :=
            modifyIdx_get_ne _ i i' tx.TxIn hne
          rw [show ({ tx with TxIn := modifyIdx (legacyUpdate prims hash) i tx.TxIn } :
              MsgTx).TxIn[i']? = (modifyIdx (legacyUpdate prims hash) i tx.TxIn)[i']? from rfl,
            this]
          exact hinp

/-! ## Characterization of the assembly phase -/

/-- `assemble` unfolded when both address decodes succeed: the payment
output comes first, the inputs are the selected UTXOs in order, and the
change check decides between the change output and the
insufficient-funds failure. -/
theorem assemble_eq (decode : String → Option Bytes) (wal rcv : String)
    (amount : Int) (utxos : List UTXO) (r : ℚ) (ps ws : Bytes)
    (hr : decode rcv = some ps) (hw : decode wal = some ws) :
    assemble decode wal rcv amount utxos r =
      (if 0 < (selectUTXOs utxos amount).2 - amount -
          EstimateFee (selectUTXOs utxos amount).1.length 2 r then
        .ok ({ TxIn := (selectUTXOs utxos amount).1.map (fun u => ⟨u.OutPoint, [], []⟩),
               TxOut := [⟨amount, ps⟩,
                 ⟨(selectUTXOs utxos amount).2 - amount -
                   EstimateFee (selectUTXOs utxos amount).1.length 2 r, ws⟩] },
              (selectUTXOs utxos amount).1)
      else .error .insufficientFunds) := by
  simp only [assemble, addOutput, addInputs, hr, hw, List.nil_append, List.cons_append,
    List.append_nil]

/-! ## Further support lemmas -/

/-- The selection total is the sum of the selected values. -/
theorem selectUTXOs_total (utxos : List UTXO) (a : Int) :
    (selectUTXOs utxos a).2 = sumVals (selectUTXOs utxos a).1 := by
  unfold selectUTXOs
  rw [selectLoop_total, zero_add]

/-- A positive fee rate bound: with nonnegative counts and fee rate the
estimated fee is at least the one-unit safety margin. -/
theorem estimateFee_pos (n m : Int) (r : ℚ) (hn : 0 ≤ n) (hm : 0 ≤ m)
    (hr : 0 ≤ r) : 1 ≤ EstimateFee n m r := by
  simp only [EstimateFee]
  have hnum : 0 ≤ (10 + 68 * n + 31 * m) * r.num :=
    mul_nonneg (by omega) (Rat.num_nonneg.mpr hr)
  have := Int.tdiv_nonneg hnum (Int.ofNat_nonneg r.den)
  omega

/-- `signOne` never fails with the insufficient-funds error. -/
theorem signOne_error_ne (prims : SignPrims) (utxos : List UTXO) (tx : MsgTx)
    (i : Nat) (e : TxError) (h : signOne prims utxos tx i = .error e) :
    e ≠ .insufficientFunds := by
  rcases hu : utxos[i]? with _ | u
  · have hb : signOne prims utxos tx i = .error (.utxoIndexOutOfRange i) := by
      unfold signOne; rw [hu]
    rw [hb] at h
    injection h with h2
    subst h2
    intro hc; cases hc
  · rw [signOne_eq prims utxos tx i u hu] at h
    by_cases hseg : IsSegwitScript u.PkScript
    · rw [if_pos hseg] at h
      rcases hh : prims.calcWitnessSigHash tx i u with e' | hash
      · rw [hh] at h
        have h' : (Except.error (TxError.sigHashError i e') : Except TxError MsgTx) =
            .error e := h
        injection h' with h2
        subst h2
        intro hc; cases hc
      · rw [hh] at h
        have h' : (Except.ok ({ tx with
            TxIn := modifyIdx (witnessUpdate prims hash) i tx.TxIn }) :
            Except TxError MsgTx) = .error e := h
        cases h'
    · rw [if_neg hseg] at h
      rcases hh : prims.legacySigHash tx i u with e' | hash
      · rw [hh] at h
        have h' : (Except.error (TxError.signError i e') : Except TxError MsgTx) =
            .error e := h
        injection h' with h2
        subst h2
        intro hc; cases hc
      · rw [hh] at h
        have h' : (Except.ok ({ tx with
            TxIn := modifyIdx (legacyUpdate prims hash) i tx.TxIn }) :
            Except TxError MsgTx) = .error e := h
        cases h'

/-- The signing loop never fails with the insufficient-funds error. -/
theorem signSteps_error_ne (prims : SignPrims) (utxos : List UTXO) :
    ∀ (idxs : List Nat) (tx : MsgTx) (e : TxError),
      signSteps prims utxos idxs tx = .error e → e ≠ .insufficientFunds
  | [], tx, e, h => by simp [signSteps] at h
  | i :: rest, tx, e, h => by
    simp only [signSteps] at h
    rcases ho : signOne prims utxos tx i with e' | tx₁
    · rw [ho] at h
      have h' : (Except.error e' : Except TxError MsgTx) = .error e := h
      injection h' with h2
      subst h2
      exact signOne_error_ne prims utxos tx i _ ho
    · rw [ho] at h
      exact signSteps_error_ne prims utxos rest tx₁ e h

/-- Sublists of value-nonnegative UTXO lists have bounded total. -/
theorem sumVals_sublist_le {S utxos : List UTXO} (hs : S.Sublist utxos)
    (hnn : ∀ u ∈ utxos, 0 ≤ u.Value) : sumVals S ≤ sumVals utxos := by
  unfold sumVals
  refine List.Sublist.sum_le_sum (List.Sublist.map _ hs) ?_
  intro a ha
  obtain ⟨u, hu, rfl⟩ := List.mem_map.mp ha
  exact hnn u hu

/-- `assemble` when the receiver address fails to decode. -/
theorem assemble_eq_noReceiver (decode : String → Option Bytes) (wal rcv : String)
    (amount : Int) (utxos : List UTXO) (r : ℚ) (hr : decode rcv = none) :
    assemble decode wal rcv amount utxos r = .error (.decodeAddressError rcv) := by
  simp only [assemble, addOutput, hr]

/-- `assemble` when the wallet change address fails to decode. -/
theorem assemble_eq_noWallet (decode : String → Option Bytes) (wal rcv : String)
    (amount : Int) (utxos : List UTXO) (r : ℚ) (ps : Bytes)
    (hr : decode rcv = some ps) (hw : decode wal = none) :
    assemble decode wal rcv amount utxos r =
      (if 0 < (selectUTXOs utxos amount).2 - amount -
          EstimateFee (selectUTXOs utxos amount).1.length 2 r then
        .error (.decodeAddressError wal)
      else .error .insufficientFunds) := by
  simp only [assemble, addOutput, addInputs, hr, hw, List.nil_append, List.cons_append,
    List.append_nil]

/-- Inversion for a successful assembly: both decodes succeeded, the
change is positive, and the transaction has the canonical shape. -/
theorem assemble_ok_inv (decode : String → Option Bytes) (wal rcv : String)
    (amount : Int) (utxos : List UTXO) (r : ℚ) (tx : MsgTx) (sel : List UTXO)
    (h : assemble decode wal rcv amount utxos r = .ok (tx, sel)) :
    ∃ ps ws, decode rcv = some ps ∧ decode wal = some ws ∧
      sel = (selectUTXOs utxos amount).1 ∧
      0 < (selectUTXOs utxos amount).2 - amount -
        EstimateFee (selectUTXOs utxos amount).1.length 2 r ∧
      tx = { TxIn := (selectUTXOs utxos amount).1.map (fun u => ⟨u.OutPoint, [], []⟩),
             TxOut := [⟨amount, ps⟩,
               ⟨(selectUTXOs utxos amount).2 - amount -
                 EstimateFee (selectUTXOs utxos amount).1.length 2 r, ws⟩] } := by
  rcases hr : decode rcv with _ | ps
  · rw [assemble_eq_noReceiver decode wal rcv amount utxos r hr] at h
    cases h
  rcases hw : decode wal with _ | ws
  · rw [assemble_eq_noWallet decode wal rcv amount utxos r ps hr hw] at h
    by_cases hch : 0 < (selectUTXOs utxos amount).2 - amount -
        EstimateFee (selectUTXOs utxos amount).1.length 2 r
    · rw [if_pos hch] at h; cases h
    · rw [if_neg hch] at h; cases h
  rw [assemble_eq decode wal rcv amount utxos r ps ws hr hw] at h
  by_cases hch : 0 < (selectUTXOs utxos amount).2 - amount -
      EstimateFee (selectUTXOs utxos amount).1.length 2 r
  · rw [if_pos hch] at h
    injection h with h2
    cases h2
    exact ⟨ps, ws, rfl, rfl, rfl, hch, rfl⟩
  · rw [if_neg hch] at h
    cases h

/-! ## Concrete fixtures used by witnesses and counterexamples -/

/-- A 22-byte P2WPKH script (`0x00 0x14` plus a 20-byte key hash). -/
def exWitScript : Bytes := 0x00 :: 0x14 :: List.replicate 20 5

/-- A legacy (non-witness) locking script. -/
def exLegacyScript : Bytes := [0x76, 0xa9, 0x14, 1, 2]

def exUTXO1000 : UTXO := ⟨⟨1, 0⟩, 1000, exWitScript⟩

def exUTXO500 : UTXO := ⟨⟨2, 0⟩, 500, exWitScript⟩

def exUTXOLegacy : UTXO := ⟨⟨3, 0⟩, 700, exLegacyScript⟩

/-- Two distinct UTXOs with equal value. -/
def exTwin1 : UTXO := ⟨⟨1, 0⟩, 5, exWitScript⟩

def exTwin2 : UTXO := ⟨⟨2, 0⟩, 5, exWitScript⟩

/-- A concrete address decoder for two known addresses. -/
def exDecode : String → Option Bytes := fun a =>
  if a = "receiver" then some exLegacyScript
  else if a = "wallet" then some exWitScript
  else none

/-- Concrete signing primitives (hashes and signatures are stand-ins). -/
def exPrims : SignPrims :=
  ⟨fun _ _ _ => .ok [9], fun _ _ _ => .ok [8], fun h => 7 :: h, [3, 4]⟩

/-! ## The claims -/

/-- C1: during transaction creation, after computing
`change = totalSelectedValue - amount - fee`, the pipeline fails with the
insufficient-funds error exactly when `change ≤ 0` (returning no
transaction, uniformly in the signing primitives, so no signing is
attempted), and when `change > 0` it instead adds a change output paying
the wallet's own address; in particular with zero available UTXOs
(empty selection, zero total) the pipeline fails with this error before
any signing is attempted. -/
theorem c1_change_gate (decode : String → Option Bytes) (wal rcv : String)
    (amount : Int) (utxos : List UTXO) (r : ℚ) (ps ws : Bytes)
    (hr : decode rcv = some ps) (hw : decode wal = some ws) :
    ((selectUTXOs utxos amount).2 - amount -
        EstimateFee (selectUTXOs utxos amount).1.length 2 r ≤ 0 →
      ∀ prims : SignPrims,
        createTransaction prims decode wal rcv amount utxos r =
          .error .insufficientFunds) ∧
    (0 < (selectUTXOs utxos amount).2 - amount -
        EstimateFee (selectUTXOs utxos amount).1.length 2 r →
      ∃ tx, assemble decode wal rcv amount utxos r =
          .ok (tx, (selectUTXOs utxos amount).1) ∧
        tx.TxOut = [⟨amount, ps⟩,
          ⟨(selectUTXOs utxos amount).2 - amount -
            EstimateFee (selectUTXOs utxos amount).1.length 2 r, ws⟩] ∧
        ∀ prims : SignPrims,
          createTransaction prims decode wal rcv amount utxos r =
            signTransaction prims tx (selectUTXOs utxos amount).1 ∧
          createTransaction prims decode wal rcv amount utxos r ≠
            .error .insufficientFunds) ∧
    (utxos = [] → 0 ≤ amount → 0 ≤ r →
      ∀ prims : SignPrims,
        createTransaction prims decode wal rcv amount utxos r =
          .error .insufficientFunds) := by
  have hfail : (selectUTXOs utxos amount).2 - amount -
      EstimateFee (selectUTXOs utxos amount).1.length 2 r ≤ 0 →
      ∀ prims : SignPrims,
        createTransaction prims decode wal rcv amount utxos r =
          .error .insufficientFunds := by
    intro hch prims
    unfold createTransaction
    rw [assemble_eq decode wal rcv amount utxos r ps ws hr hw, if_neg (not_lt.mpr hch)]
  refine ⟨hfail, ?_, ?_⟩
  · intro hch
    refine ⟨{ TxIn := (selectUTXOs utxos amount).1.map (fun u => ⟨u.OutPoint, [], []⟩),
              TxOut := [⟨amount, ps⟩,
                ⟨(selectUTXOs utxos amount).2 - amount -
                  EstimateFee (selectUTXOs utxos amount).1.length 2 r, ws⟩] },
            ?_, rfl, ?_⟩
    · rw [assemble_eq decode wal rcv amount utxos r ps ws hr hw, if_pos hch]
    · intro prims
      have heq : createTransaction prims decode wal rcv amount utxos r =
          signTransaction prims
            { TxIn := (selectUTXOs utxos amount).1.map (fun u => ⟨u.OutPoint, [], []⟩),
              TxOut := [⟨amount, ps⟩,
                ⟨(selectUTXOs utxos amount).2 - amount -
                  EstimateFee (selectUTXOs utxos amount).1.length 2 r, ws⟩] }
            (selectUTXOs utxos amount).1 := by
        unfold createTransaction
        rw [assemble_eq decode wal rcv amount utxos r ps ws hr hw, if_pos hch]
      refine ⟨heq, ?_⟩
      intro hbad
      rw [heq] at hbad
      exact signSteps_error_ne prims (selectUTXOs utxos amount).1 _ _ _ hbad rfl
  · intro hnil ham hrq prims
    subst hnil
    have hfee := estimateFee_pos 0 2 r le_rfl (by omega) hrq
    apply hfail _ prims
    have hz : (selectUTXOs ([] : List UTXO) amount).2 = 0 := rfl
    have hl : ((selectUTXOs ([] : List UTXO) amount).1.length : Int) = 0 := rfl
    rw [hz, hl]
    omega

theorem c1_change_gate_witness :
    createTransaction exPrims exDecode "wallet" "receiver" 5 [] 1 =
      .error .insufficientFunds :=
  (c1_change_gate exDecode "wallet" "receiver" 5 [] 1 exLegacyScript exWitScript
      (by decide) (by decide)).2.2 rfl (by decide) (by decide) exPrims

/-- C2 refuted as stated: with a requested amount of `0` the pipeline
happily reaches and completes signing, yet the payment output value `0`
is not strictly positive. -/
theorem c2_assembly_invariant_counterexample :
    (createTransaction exPrims exDecode "wallet" "receiver" 0 [exUTXO1000] 0).toOption.map
      (fun tx => tx.TxOut.all (fun o => decide (0 < o.value))) = some false := by
  decide

/-- C2 (amended): for every successful assembly (the stage whose result
is handed to the signer), the sum of all output values plus the fee
equals the total selected input value, the outputs are ordered with the
payment output first and the change output second, the change output is
strictly positive, and — provided the requested amount is strictly
positive — every output value is strictly positive. -/
theorem c2_assembly_invariant (decode : String → Option Bytes) (wal rcv : String)
    (amount : Int) (utxos : List UTXO) (r : ℚ) (tx : MsgTx) (sel : List UTXO)
    (h : assemble decode wal rcv amount utxos r = .ok (tx, sel)) :
    (tx.TxOut.map (fun o => o.value)).sum + EstimateFee sel.length 2 r = sumVals sel ∧
    (∃ ps ws, decode rcv = some ps ∧ decode wal = some ws ∧
      tx.TxOut = [⟨amount, ps⟩,
        ⟨sumVals sel - amount - EstimateFee sel.length 2 r, ws⟩]) ∧
    0 < sumVals sel - amount - EstimateFee sel.length 2 r ∧
    (0 < amount → ∀ o ∈ tx.TxOut, 0 < o.value) := by
  obtain ⟨ps, ws, hr, hw, hsel, hch, htx⟩ :=
    assemble_ok_inv decode wal rcv amount utxos r tx sel h
  subst hsel
  subst htx
  rw [← selectUTXOs_total utxos amount]
  refine ⟨by simp; omega, ⟨ps, ws, hr, hw, rfl⟩, hch, ?_⟩
  intro ham o ho
  rcases List.mem_cons.mp ho with rfl | ho2
  · exact ham
  rcases List.mem_cons.mp ho2 with rfl | ho3
  · exact hch
  · cases ho3

/-- Instantiation of the amended C2 on a concrete successful assembly. -/
theorem c2_assembly_invariant_witness :
    0 < sumVals [exUTXO1000] - 200 -
      EstimateFee (([exUTXO1000] : List UTXO).length : Int) 2 1 :=
  (c2_assembly_invariant exDecode "wallet" "receiver" 200 [exUTXO1000, exUTXO500] 1
      ⟨[⟨⟨1, 0⟩, [], []⟩], [⟨200, exLegacyScript⟩, ⟨659, exWitScript⟩]⟩ [exUTXO1000]
      (by decide)).2.2.1

/-- C3: for every input signed by `signTransaction` (on a transaction
whose inputs are fresh placeholders, as produced by `addInputs`),
dispatch on the matching UTXO's locking-script type is exhaustive and
exclusive: a witness-type script yields an empty unlocking script and
the two-element witness stack `[derSig ++ sighash-byte, compressed
public key]`; a legacy script yields a populated unlocking script and no
witness entry. -/
theorem c3_script_dispatch (prims : SignPrims) (tx tx' : MsgTx) (utxos : List UTXO)
    (hfresh : ∀ i, emptyAt tx i)
    (hrun : signTransaction prims tx utxos = .ok tx') :
    tx'.TxIn.length = tx.TxIn.length ∧
    ∀ i, i < tx'.TxIn.length →
      ∃ u inp, utxos[i]? = some u ∧ tx'.TxIn[i]? = some inp ∧
        (if IsSegwitScript u.PkScript then
          inp.SignatureScript = [] ∧
            ∃ hash, inp.Witness = [prims.ecSign hash ++ [sigHashAll], prims.pubKey]
        else
          inp.SignatureScript ≠ [] ∧ inp.Witness = []) := by
  obtain ⟨hlen, _, _, hshape⟩ := signSteps_ok prims utxos (List.range tx.TxIn.length) tx tx'
    (List.nodup_range _) (fun i _ => hfresh i) hrun
  refine ⟨hlen, ?_⟩
  intro i hi
  have hi' : i < tx.TxIn.length := hlen ▸ hi
  have hmem : i ∈ List.range tx.TxIn.length := List.mem_range.mpr hi'
  obtain ⟨inp, hinp⟩ : ∃ inp, tx.TxIn[i]? = some inp := by
    rw [List.getElem?_eq_getElem hi']
    exact ⟨_, rfl⟩
  obtain ⟨u, hu, inp', hinp', hshape'⟩ := hshape i hmem inp hinp
  exact ⟨u, inp', hu, hinp', hshape'⟩

/-- A two-input placeholder transaction (one witness UTXO, one legacy). -/
def exTx2 : MsgTx := ⟨[⟨⟨1, 0⟩, [], []⟩, ⟨⟨3, 0⟩, [], []⟩], []⟩

/-- The signed form of `exTx2` under `exPrims`. -/
def exTx2Signed : MsgTx :=
  ⟨[⟨⟨1, 0⟩, [], [[7, 9, 1], [3, 4]]⟩, ⟨⟨3, 0⟩, [3, 7, 8, 1, 2, 3, 4], []⟩], []⟩

theorem c3_script_dispatch_witness :
    signTransaction exPrims exTx2 [exUTXO1000, exUTXOLegacy] = .ok exTx2Signed ∧
    exTx2Signed.TxIn.length = exTx2.TxIn.length :=
  ⟨by decide,
   (c3_script_dispatch exPrims exTx2 exTx2Signed [exUTXO1000, exUTXOLegacy]
      (by
        intro i inp h
        rcases i with _ | _ | n
        · injection h with h2; subst h2; exact ⟨rfl, rfl⟩
        · injection h with h2; subst h2; exact ⟨rfl, rfl⟩
        · simp [exTx2] at h)
      (by decide)).1⟩

/-- C4 refuted as stated: the selector targets the payment amount only,
not amount plus fee.  With UTXOs of 1000 and 500, amount 1000 and fee
rate 1, the full set covers amount plus fee but the selection stops at
1000, short of amount plus fee, and the pipeline then fails. -/
theorem c4_covers_amount_counterexample :
    1000 + EstimateFee ((selectUTXOs [exUTXO1000, exUTXO500] 1000).1.length : Int) 2 1 ≤
        sumVals [exUTXO1000, exUTXO500] ∧
    (selectUTXOs [exUTXO1000, exUTXO500] 1000).2 <
      1000 + EstimateFee ((selectUTXOs [exUTXO1000, exUTXO500] 1000).1.length : Int) 2 1 ∧
    assemble exDecode "wallet" "receiver" 1000 [exUTXO1000, exUTXO500] 1 =
      .error .insufficientFunds := by
  decide

/-- C4 (amended): the Coin Selector covers the target payment amount
only (the fee is not part of the selection target): whenever the full
UTXO set's total is at least the amount, the selected subset's total is
at least the amount; a shortfall relative to amount plus fee is only
detected later by the change check. -/
theorem c4_covers_amount (utxos : List UTXO) (amount : Int)
    (h : amount ≤ sumVals utxos) : amount ≤ (selectUTXOs utxos amount).2 := by
  rcases selectLoop_stop amount (sortUTXOs utxos) 0 with h1 | h1
  · exact h1
  · have htot : (selectUTXOs utxos amount).2 = sumVals utxos := by
      unfold selectUTXOs
      rw [selectLoop_total, h1, sortUTXOs_sumVals, zero_add]
    omega

theorem c4_covers_amount_witness :
    (1200 : Int) ≤ (selectUTXOs [exUTXO1000, exUTXO500] 1200).2 :=
  c4_covers_amount [exUTXO1000, exUTXO500] 1200 (by decide)

/-- C5: `Select` implements largest-first greedy selection: the chosen
list is an initial segment of the UTXOs sorted by descending value, the
returned total is its value sum, the loop stops exactly when the total
reaches the target or the set is exhausted (no shorter prefix reaches a
positive target), any target coverable by a sublist of value-nonnegative
inputs is covered by the selection, and the empty input yields the empty
selection with zero total. -/
theorem c5_greedy_policy (utxos : List UTXO) (T : Int) :
    (∃ rest, sortUTXOs utxos = (selectUTXOs utxos T).1 ++ rest) ∧
    (selectUTXOs utxos T).2 = sumVals (selectUTXOs utxos T).1 ∧
    (T ≤ (selectUTXOs utxos T).2 ∨ (selectUTXOs utxos T).1 = sortUTXOs utxos) ∧
    (0 < T → ∀ pre rest', (selectUTXOs utxos T).1 = pre ++ rest' → rest' ≠ [] →
      sumVals pre < T) ∧
    ((∀ u ∈ utxos, 0 ≤ u.Value) →
      ∀ S, S.Sublist utxos → T ≤ sumVals S → T ≤ (selectUTXOs utxos T).2) ∧
    (utxos = [] → selectUTXOs utxos T = ([], 0)) := by
  refine ⟨?_, selectUTXOs_total utxos T, ?_, ?_, ?_, ?_⟩
  · exact selectLoop_init T (sortUTXOs utxos) 0
  · exact selectLoop_stop T (sortUTXOs utxos) 0
  · intro hT pre rest' hsplit hne
    have := selectLoop_minimal T (sortUTXOs utxos) 0 hT pre rest' hsplit hne
    omega
  · intro hnn S hS hsum
    rcases selectLoop_stop T (sortUTXOs utxos) 0 with h1 | h1
    · exact h1
    · have htot : (selectUTXOs utxos T).2 = sumVals utxos := by
        unfold selectUTXOs
        rw [selectLoop_total, h1, sortUTXOs_sumVals, zero_add]
      have hle := sumVals_sublist_le hS hnn
      omega
  · intro hnil; subst hnil; rfl

theorem c5_greedy_policy_witness :
    (1500 : Int) ≤ (selectUTXOs [exUTXO1000, exUTXO500] 1500).2 :=
  (c5_greedy_policy [exUTXO1000, exUTXO500] 1500).2.2.2.2.1 (by decide)
    [exUTXO1000, exUTXO500] (List.Sublist.refl _) (by decide)

/-- C6 refuted as stated: two distinct UTXOs of equal value; on the
permuted list the selector returns a different chosen UTXO sequence
(the UTXO identities differ even though the values agree). -/
theorem c6_stability_counterexample :
    List.Perm [exTwin1, exTwin2] [exTwin2, exTwin1] ∧
    (selectUTXOs [exTwin1, exTwin2] 5).1 ≠ (selectUTXOs [exTwin2, exTwin1] 5).1 :=
  ⟨List.Perm.swap exTwin2 exTwin1 [], by decide⟩

/-- C6 (amended): for every permutation of the UTXO list and every
target, `Select` returns the same chosen **value** sequence and the same
total value (selection depends only on the multiset of input values up
to UTXO identity; with distinct UTXOs of equal value the identities in
the chosen sequence may differ). -/
theorem c6_value_stability (utxos utxos' : List UTXO) (T : Int)
    (h : List.Perm utxos utxos') :
    (selectUTXOs utxos T).1.map (fun u => u.Value) =
      (selectUTXOs utxos' T).1.map (fun u => u.Value) ∧
    (selectUTXOs utxos T).2 = (selectUTXOs utxos' T).2 := by
  have hv := sortUTXOs_map_value h
  have h1 := selectLoop_map_value T (sortUTXOs utxos) 0
  have h2 := selectLoop_map_value T (sortUTXOs utxos') 0
  constructor
  · unfold selectUTXOs
    rw [h1.1, h2.1, hv]
  · unfold selectUTXOs
    rw [h1.2, h2.2, hv]

theorem c6_value_stability_witness :
    (selectUTXOs [exUTXO1000, exUTXO500] 700).1.map (fun u => u.Value) =
      (selectUTXOs [exUTXO500, exUTXO1000] 700).1.map (fun u => u.Value) :=
  (c6_value_stability [exUTXO1000, exUTXO500] [exUTXO500, exUTXO1000] 700
    (List.Perm.swap exUTXO500 exUTXO1000 [])).1

/-- C7: `EstimateFee(n, m, r)` equals the approximate virtual size
`10 + 68*n + 31*m` multiplied by the fee rate, rounded (toward zero, as
Go's `int64()` conversion does), plus one minimal unit. -/
theorem c7_fee_formula (n m : Int) (r : ℚ) :
    EstimateFee n m r = truncRat ((10 + 68 * (n : ℚ) + 31 * (m : ℚ)) * r) + 1 := by
  rw [estimateFee_eq_truncRat]
  have hcast : ((10 + 68 * n + 31 * m : Int) : ℚ) = 10 + 68 * (n : ℚ) + 31 * (m : ℚ) := by
    push_cast
    ring
  rw [hcast]

/-- C8: `EstimateFee` is monotone in each argument over nonnegative
counts and fee rates. -/
theorem c8_fee_monotone (n n' m m' : Int) (r r' : ℚ) :
    (0 ≤ n → 0 ≤ m → 0 ≤ r → n ≤ n' → EstimateFee n m r ≤ EstimateFee n' m r) ∧
    (0 ≤ n → 0 ≤ m → 0 ≤ r → m ≤ m' → EstimateFee n m r ≤ EstimateFee n m' r) ∧
    (0 ≤ n → 0 ≤ m → 0 ≤ r → r ≤ r' → EstimateFee n m r ≤ EstimateFee n m r') := by
  have key : ∀ (a b : Int) (q q' : ℚ), 0 ≤ a → a ≤ b → 0 ≤ q → q ≤ q' →
      truncRat ((a : ℚ) * q) ≤ truncRat ((b : ℚ) * q') := by
    intro a b q q' ha hab hq hqq
    have ha' : (0 : ℚ) ≤ (a : ℚ) := by exact_mod_cast ha
    have hab' : (a : ℚ) ≤ (b : ℚ) := by exact_mod_cast hab
    exact truncRat_mono_nonneg (mul_nonneg ha' hq)
      (mul_le_mul hab' hqq hq (le_trans ha' hab'))
  refine ⟨?_, ?_, ?_⟩
  · intro h1 h2 h3 h4
    rw [estimateFee_eq_truncRat, estimateFee_eq_truncRat]
    have := key (10 + 68 * n + 31 * m) (10 + 68 * n' + 31 * m) r r
      (by omega) (by omega) h3 le_rfl
    omega
  · intro h1 h2 h3 h4
    rw [estimateFee_eq_truncRat, estimateFee_eq_truncRat]
    have := key (10 + 68 * n + 31 * m) (10 + 68 * n + 31 * m') r r
      (by omega) (by omega) h3 le_rfl
    omega
  · intro h1 h2 h3 h4
    rw [estimateFee_eq_truncRat, estimateFee_eq_truncRat]
    have := key (10 + 68 * n + 31 * m) (10 + 68 * n + 31 * m) r r'
      (by omega) (by omega) h3 h4
    omega

theorem c8_fee_monotone_witness :
    EstimateFee 1 2 1 ≤ EstimateFee 2 2 1 ∧
    EstimateFee 1 2 1 ≤ EstimateFee 1 3 1 ∧
    EstimateFee 1 2 1 ≤ EstimateFee 1 2 2 :=
  ⟨(c8_fee_monotone 1 2 2 3 1 2).1 (by decide) (by decide) (by decide) (by decide),
   (c8_fee_monotone 1 2 2 3 1 2).2.1 (by decide) (by decide) (by decide) (by decide),
   (c8_fee_monotone 1 2 2 3 1 2).2.2 (by decide) (by decide) (by decide) (by decide)⟩

/-- C9: in a successful assembly, the UTXO list handed to the signer is
index-aligned with the transaction's inputs: the counts agree, the
`i`-th input's previous outpoint is exactly `utxos[i].OutPoint`, and
every positional access the signer performs is in bounds. -/
theorem c9_positional_alignment (decode : String → Option Bytes) (wal rcv : String)
    (amount : Int) (utxos : List UTXO) (r : ℚ) (tx : MsgTx) (sel : List UTXO)
    (h : assemble decode wal rcv amount utxos r = .ok (tx, sel)) :
    tx.TxIn.length = sel.length ∧
    (∀ i : Nat, (tx.TxIn[i]?).map (fun inp => inp.PreviousOutPoint) =
      (sel[i]?).map (fun u => u.OutPoint)) ∧
    (∀ i : Nat, i < tx.TxIn.length → ∃ u, sel[i]? = some u) := by
  obtain ⟨ps, ws, hr, hw, hsel, hch, htx⟩ :=
    assemble_ok_inv decode wal rcv amount utxos r tx sel h
  subst hsel
  subst htx
  refine ⟨List.length_map _ _, ?_, ?_⟩
  · intro i
    cases hsel2 : ((selectUTXOs utxos amount).1)[i]? with
    | none => simp [hsel2]
    | some u => simp [hsel2]
  · intro i hi
    have hi' : i < (selectUTXOs utxos amount).1.length := by
      simpa using hi
    rw [List.getElem?_eq_getElem hi']
    exact ⟨_, rfl⟩

theorem c9_positional_alignment_witness :
    (⟨[⟨⟨1, 0⟩, [], []⟩], [⟨200, exLegacyScript⟩, ⟨659, exWitScript⟩]⟩ : MsgTx).TxIn.length =
      ([exUTXO1000] : List UTXO).length :=
  (c9_positional_alignment exDecode "wallet" "receiver" 200 [exUTXO1000, exUTXO500] 1
    ⟨[⟨⟨1, 0⟩, [], []⟩], [⟨200, exLegacyScript⟩, ⟨659, exWitScript⟩]⟩ [exUTXO1000]
    (by decide)).1

/-- C10: for every nonempty UTXO list `Select` returns a nonempty
selection (the loop appends before testing) that always includes a
largest UTXO (the selection is a nonempty initial segment of the
descending sort, so its head is value-maximal), for every target; for a
zero-or-negative target (with the data model's nonnegative values) it
returns exactly one UTXO, a largest one; an empty selection thus occurs
only for an empty input list. -/
theorem c10_nonempty_selection (utxos : List UTXO) (T : Int) (hne : utxos ≠ []) :
    (selectUTXOs utxos T).1 ≠ [] ∧
    (∃ u, u ∈ (selectUTXOs utxos T).1 ∧ u ∈ utxos ∧
      ∀ v ∈ utxos, v.Value ≤ u.Value) ∧
    (T ≤ 0 → (∀ u ∈ utxos, 0 ≤ u.Value) →
      ∃ u, (selectUTXOs utxos T).1 = [u] ∧ u ∈ utxos ∧
        ∀ v ∈ utxos, v.Value ≤ u.Value) := by
  rcases hs : sortUTXOs utxos with _ | ⟨u0, rest⟩
  · exfalso
    have hperm := sortUTXOs_perm utxos
    rw [hs] at hperm
    have := hperm.length_eq
    simp at this
    exact hne (List.length_eq_zero.mp this.symm)
  · have hperm := sortUTXOs_perm utxos
    have hmem0 : u0 ∈ utxos := by
      rw [hs] at hperm
      exact hperm.mem_iff.mp (List.mem_cons_self u0 rest)
    have hmax : ∀ v ∈ utxos, v.Value ≤ u0.Value := by
      intro v hv
      have hsorted := sortUTXOs_sorted utxos
      have hvmem : v ∈ sortUTXOs utxos := (sortUTXOs_perm utxos).mem_iff.mpr hv
      rw [hs] at hsorted hvmem
      rcases List.mem_cons.mp hvmem with rfl | hvrest
      · exact le_rfl
      · exact (List.sorted_cons.mp hsorted).1 v hvrest
    have hhead : ∃ tail, (selectUTXOs utxos T).1 = u0 :: tail := by
      unfold selectUTXOs
      rw [hs]
      by_cases h : T ≤ 0 + u0.Value
      · exact ⟨[], by simp [selectLoop, show T ≤ u0.Value from by omega]⟩
      · refine ⟨(selectLoop T (0 + u0.Value) rest).1, ?_⟩
        simp [selectLoop, show ¬ T ≤ u0.Value from by omega]
    obtain ⟨tail, htail⟩ := hhead
    refine ⟨?_, ?_, ?_⟩
    · rw [htail]
      simp
    · exact ⟨u0, by rw [htail]; exact List.mem_cons_self u0 tail, hmem0, hmax⟩
    · intro hT hnn
      have h0 : 0 ≤ u0.Value := hnn u0 hmem0
      refine ⟨u0, ?_, hmem0, hmax⟩
      unfold selectUTXOs
      rw [hs, selectLoop_first T u0 rest 0 (by omega)]

theorem c10_nonempty_selection_witness :
    ((selectUTXOs [exUTXO1000, exUTXO500] 1200).1 ≠ [] ∧
     (∃ u, u ∈ (selectUTXOs [exUTXO1000, exUTXO500] 1200).1 ∧
        u ∈ [exUTXO1000, exUTXO500] ∧
        ∀ v ∈ [exUTXO1000, exUTXO500], v.Value ≤ u.Value)) ∧
    (∃ u, (selectUTXOs [exUTXO1000, exUTXO500] (-3)).1 = [u] ∧
      u ∈ [exUTXO1000, exUTXO500] ∧
      ∀ v ∈ [exUTXO1000, exUTXO500], v.Value ≤ u.Value) :=
  ⟨⟨(c10_nonempty_selection [exUTXO1000, exUTXO500] 1200 (by decide)).1,
    (c10_nonempty_selection [exUTXO1000, exUTXO500] 1200 (by decide)).2.1⟩,
   (c10_nonempty_selection [exUTXO1000, exUTXO500] (-3) (by decide)).2.2
     (by decide) (by decide)⟩

end BtcDemo
